import Mathlib

/-!
Verification of the pane discovery and idle-detection core of tmux-agent.

The Go sources (`tmux.go`, `cmd.go`, `watch.go`) are shallowly embedded:
pure string-processing functions become Lean functions on `String`
(represented via its `data : List Char`), the `map[string]...` tables of Go
become association lists whose per-key insertion order matches Go's
`append` semantics, `time.Time`/`time.Duration` values become unbounded
integers, and the stateful watch loop becomes an explicit state-passing
step function.  Functions from Go's `strings` package that the code calls
(`Split` with a one-character separator, `TrimSpace`, `Fields`,
`LastIndex`+slice) are modelled by small recursive functions on `List Char`
so that every definition evaluates by kernel reduction.

General recursion that Go performs without a termination guarantee
(`findTargetDescendant`) is embedded with an explicit fuel parameter:
`none` models divergence (fuel exhaustion at every depth), `some s` models
the Go function returning the string `s`.
-/

namespace TmuxAgent

/-! ## String primitives modelling the Go `strings` package -/

/-- Model of `strings.Split(s, sep)` for a one-character separator, at the
character-list level: splits at every occurrence of `sep`, keeping empty
pieces, and returns one more piece than there are separators. -/
def splitOnChar (sep : Char) : List Char → List (List Char)
  | [] => [[]]
  | c :: rest =>
    if c = sep then [] :: splitOnChar sep rest
    else
      match splitOnChar sep rest with
      | [] => [[c]]
      | h :: t => (c :: h) :: t

/-- Model of `strings.Split(s, sep)` for a one-character separator. -/
def goSplit (sep : Char) (s : String) : List String :=
  (splitOnChar sep s.data).map String.mk

/-- Model of `strings.TrimSpace`: drop leading and trailing whitespace. -/
def trimSpace (s : String) : String :=
  String.mk (((s.data.dropWhile Char.isWhitespace).reverse.dropWhile
    Char.isWhitespace).reverse)

/-- Helper for `goFields`: accumulates the current field (in reverse). -/
def goFieldsAux : List Char → List Char → List String
  | [], acc => if acc.isEmpty then [] else [String.mk acc.reverse]
  | c :: rest, acc =>
    if c.isWhitespace then
      if acc.isEmpty then goFieldsAux rest []
      else String.mk acc.reverse :: goFieldsAux rest []
    else goFieldsAux rest (c :: acc)

/-- Model of `strings.Fields`: split around runs of whitespace, with no
empty fields. -/
def goFields (s : String) : List String :=
  goFieldsAux s.data []

/-- Model of the `strings.LastIndex(cmd, "/")` + slice idiom used in
`isTargetCommand` and `findTargetChild`: the segment of the string after
its last `/`, or the whole string when it has no `/`. -/
def afterLastSlash (s : String) : String :=
  String.mk ((s.data.reverse.takeWhile (fun c => c != '/')).reverse)

/-! ## tmux.go: target classification and the process tree -/

/-- Translation of `isTargetCommand` (tmux.go): take the basename of the
command (the part after the last `/`, per `strings.LastIndex`) and compare
it exactly against the two recognized agent names. -/
def isTargetCommand (cmd : String) : Bool :=
  let base := afterLastSlash cmd
  base == "claude" || base == "codex"

/-- Translation of the Go struct `psEntry` (tmux.go). -/
structure psEntry where
  pid : String
  comm : String
deriving DecidableEq, Repr

/-- Translation of `buildProcessTree` (tmux.go).  The Go function builds a
`map[string][]psEntry` from parent pid to children by appending in row
order; we keep the rows as an ordered association list of
(parent pid, child entry) pairs, which preserves exactly the per-key
insertion order of the Go map. -/
def buildProcessTree (psOutput : String) : List (String × psEntry) :=
  (goSplit '\n' (trimSpace psOutput)).filterMap (fun line =>
    let fields := goFields line
    if fields.length < 3 then none
    else some (fields.getD 1 "", ⟨fields.getD 0 "", fields.getD 2 ""⟩))

/-- Lookup `tree[pid]` of the Go map: the children of `pid` in row order
(a missing key yields the empty list, as in Go). -/
def childrenOf (tree : List (String × psEntry)) (pid : String) : List psEntry :=
  (tree.filter (fun e => e.1 == pid)).map (fun e => e.2)

/-- Translation of the sibling loop inside `findTargetDescendant`
(tmux.go): scan the children in order; return a child's command as soon as
it is a target, otherwise search that child's whole subtree (via `search`)
before moving to the next sibling; `""` means no match, `none` means the
recursive search diverged. -/
def scanChildren (search : String → Option String) : List psEntry → Option String
  | [] => some ""
  | c :: rest =>
    if isTargetCommand c.comm then some c.comm
    else
      match search c.pid with
      | none => none
      | some found => if found = "" then scanChildren search rest else some found

/-- Fuel-indexed translation of `findTargetDescendant` (tmux.go).  The Go
function recurses without any cycle protection; fuel bounds the recursion
depth, and `none` (returned at every fuel) models non-termination. -/
def findTargetDescendantFuel : Nat → List (String × psEntry) → String → Option String
  | 0, _, _ => none
  | fuel + 1, tree, pid =>
    scanChildren (fun q => findTargetDescendantFuel fuel tree q) (childrenOf tree pid)

/-- Translation of `findTargetChild` (tmux.go): build the process tree,
search the subtree of `panePID`, and return the basename of the first
target command found (`""` when there is none).  The fuel
`tree.length + 1` bounds any simple path through the listing, so it is
exhausted only when the listing has a cycle reachable from `panePID`, i.e.
exactly when the Go function diverges. -/
def findTargetChild (psOutput panePID : String) : Option String :=
  let tree := buildProcessTree psOutput
  match findTargetDescendantFuel (tree.length + 1) tree panePID with
  | none => none
  | some found =>
    if found = "" then some ""
    else some (afterLastSlash found)

/-! ## tmux.go: pane listing and idle classification -/

/-- Translation of the Go struct `paneInfo` (tmux.go), with times as
integers. -/
structure paneInfo where
  id : String
  command : String
  pid : String
  dir : String
  lastOutput : String
  lastChangeAt : Int
deriving DecidableEq, Repr

/-- Translation of one iteration of the row loop of `parsePaneList`
(tmux.go).  `lookup` models the package-level `childLookupFn` and `now`
the `time.Now()` stamped on every produced record.  `none` means the row
is skipped. -/
def parsePaneLine (lookup : String → String) (now : Int) (line : String) :
    Option paneInfo :=
  if line = "" then none
  else
    let fields := goSplit '\t' line
    if fields.length < 3 then none
    else
      let cmd := fields.getD 1 ""
      let pid := fields.getD 2 ""
      let dir := if 4 ≤ fields.length then fields.getD 3 "" else ""
      if isTargetCommand cmd then
        some ⟨fields.getD 0 "", cmd, pid, dir, "", now⟩
      else
        let child := lookup pid
        if child ≠ "" then some ⟨fields.getD 0 "", child, pid, dir, "", now⟩
        else none

/-- Translation of `parsePaneList` (tmux.go): split the trimmed listing
into lines and keep, in row order, the rows running a target command
directly or via the child-process lookup. -/
def parsePaneList (lookup : String → String) (now : Int) (output : String) :
    List paneInfo :=
  (goSplit '\n' (trimSpace output)).filterMap (parsePaneLine lookup now)

/-- Translation of `detectIdle` (tmux.go): `time.Since(p.LastChangeAt)`
becomes `now - p.lastChangeAt`. -/
def detectIdle (p : paneInfo) (now threshold : Int) : Bool :=
  decide (threshold ≤ now - p.lastChangeAt)

/-! ## watch.go: the scan loop of runWatch -/

/-- Lines the watch loop writes through its logger, as far as the claims
are concerned: an idle report for a pane, or the warning printed when
listing panes fails. -/
inductive Report where
  | idle : Int → String → Report
  | warn : Int → Report
deriving DecidableEq, Repr

/-- Lookup in an association list, modelling a read of a Go map. -/
def lookupA {α : Type} : List (String × α) → String → Option α
  | [], _ => none
  | (k', v') :: rest, k => if k' = k then some v' else lookupA rest k

/-- Update of an association list, modelling a write to a Go map. -/
def insertA {α : Type} : List (String × α) → String → α → List (String × α)
  | [], k, v => [(k, v)]
  | (k', v') :: rest, k, v =>
    if k' = k then (k, v) :: rest else (k', v') :: insertA rest k v

/-- The cross-tick state of `runWatch` (watch.go): the two maps
`paneOutputs` and `paneLastChange`, keyed by pane ID. -/
structure WatchState where
  paneOutputs : List (String × String)
  paneLastChange : List (String × Int)
deriving DecidableEq, Repr

/-- Translation of the body of the per-pane loop of `runWatch` (watch.go)
for one pane on one tick.  `cap` is the result of `capturePaneOutput`
(`none` models a capture error, which Go handles with `continue`); the Go
condition `!exists || prev != output` is `lookupA st.paneOutputs p.id ≠
some output`.  Returns the updated state and the idle report lines emitted
for this pane. -/
def processPane (th : Int) (st : WatchState) (now : Int) (p : paneInfo)
    (cap : Option String) : WatchState × List Report :=
  match cap with
  | none => (st, [])
  | some output =>
    let st' := if lookupA st.paneOutputs p.id = some output then st
      else ⟨insertA st.paneOutputs p.id output, insertA st.paneLastChange p.id now⟩
    let p' := match lookupA st'.paneLastChange p.id with
      | some lc => { p with lastChangeAt := lc, lastOutput := output }
      | none => p
    if detectIdle p' now th then (st', [Report.idle now p.id]) else (st', [])

/-- The per-tick pane loop of `runWatch`: panes are processed in listing
order, threading the state. -/
def processPanes (th : Int) (st : WatchState) (now : Int) :
    List (paneInfo × Option String) → WatchState × List Report
  | [] => (st, [])
  | (p, cap) :: rest =>
    let r1 := processPane th st now p cap
    let r2 := processPanes th r1.1 now rest
    (r2.1, r1.2 ++ r2.2)

/-- One tick of `runWatch`: `none` models `listTmuxPanes` failing, which
logs a warning and skips the tick (`continue`); otherwise each listed pane
is processed with its capture result. -/
def runTick (th : Int) (st : WatchState) (now : Int)
    (listing : Option (List (paneInfo × Option String))) :
    WatchState × List Report :=
  match listing with
  | none => (st, [Report.warn now])
  | some panes => processPanes th st now panes

/-- A run of the scan loop of `runWatch` over a finite list of ticks, each
tick given by its time and the outcome of listing/capturing.  The loop
starts from empty maps in Go; here the start state is a parameter. -/
def runTicks (th : Int) (st : WatchState) :
    List (Int × Option (List (paneInfo × Option String))) →
    WatchState × List Report
  | [] => (st, [])
  | (now, listing) :: rest =>
    let r1 := runTick th st now listing
    let r2 := runTicks th r1.1 rest
    (r2.1, r1.2 ++ r2.2)

/-- Recognizer for an idle report line about the pane `id`. -/
def isIdleReportFor (id : String) : Report → Bool
  | .idle _ i => i == id
  | .warn _ => false

/-! ## Specification-side definitions -/

/-- Modelled from the spec's words (§4.1): the sibling-list part of the
depth-first, children-before-recursion visit order — each child's command
is listed first, then the commands of that child's whole subtree, then the
next sibling.  Used only to state the order in which
`findTargetDescendant` encounters commands. -/
def dfsCommOrderList (visit : String → Option (List String)) :
    List psEntry → Option (List String)
  | [] => some []
  | c :: rest =>
    match visit c.pid with
    | none => none
    | some sub =>
      match dfsCommOrderList visit rest with
      | none => none
      | some rl => some (c.comm :: (sub ++ rl))

/-- Modelled from the spec's words (§4.1): the full depth-first,
children-before-recursion visit order of commands below `pid`, with the
same fuel discipline as `findTargetDescendantFuel`. -/
def dfsCommOrder : Nat → List (String × psEntry) → String → Option (List String)
  | 0, _, _ => none
  | fuel + 1, tree, pid =>
    dfsCommOrderList (fun q => dfsCommOrder fuel tree q) (childrenOf tree pid)

/-- The first target command of a visit order, `""` when there is none —
the value the spec says `findTargetDescendant` must return. -/
def firstTargetComm : List String → String
  | [] => ""
  | c :: rest => if isTargetCommand c then c else firstTargetComm rest

/-! ## cmd.go: truncateLastLine -/

/-- Translation of `truncateLastLine` (cmd.go).  Go's slice expression
`last[:maxLen-3]` panics when the bound is outside `[0, len(last)]`;
`none` models that runtime panic. -/
def truncateLastLine (output : String) (maxLen : Int) : Option String :=
  if output = "" then some ""
  else
    let lines := goSplit '\n' output
    let last := lines.getLastD ""
    if (last.length : Int) > maxLen then
      if 0 ≤ maxLen - 3 ∧ maxLen - 3 ≤ (last.length : Int) then
        some (String.mk (last.data.take (maxLen - 3).toNat) ++ "...")
      else none
    else some last

/-! ## Lemmas about the association-list model of Go maps -/

lemma lookupA_insertA_self {α : Type} (m : List (String × α)) (k : String) (v : α) :
    lookupA (insertA m k v) k = some v := by
  induction m with
  | nil => simp [insertA, lookupA]
  | cons h rest ih =>
    obtain ⟨k', v'⟩ := h
    by_cases hk : k' = k
    · simp [insertA, hk, lookupA]
    · simp [insertA, hk, lookupA, ih]

lemma lookupA_insertA_ne {α : Type} (m : List (String × α)) (k : String) (v : α)
    (q : String) (h : q ≠ k) : lookupA (insertA m k v) q = lookupA m q := by
  induction m with
  | nil =>
    simp [insertA, lookupA]
    intro hk
    exact absurd hk.symm h
  | cons hd rest ih =>
    obtain ⟨k', v'⟩ := hd
    by_cases hk : k' = k
    · subst hk
      by_cases hq : k' = q
      · exact absurd hq.symm h
      · simp [insertA, lookupA, hq]
    · by_cases hq : k' = q
      · simp [insertA, hk, lookupA, hq, h]
      · simp [insertA, hk, lookupA, hq, ih]

/-! ## Lemmas about processPane -/

lemma processPane_fst (th : Int) (st : WatchState) (now : Int) (p : paneInfo)
    (output : String) :
    (processPane th st now p (some output)).1 =
      (if lookupA st.paneOutputs p.id = some output then st
       else ⟨insertA st.paneOutputs p.id output, insertA st.paneLastChange p.id now⟩) := by
  simp only [processPane]
  split <;> split <;> rfl

lemma processPane_fst_frame (th : Int) (st : WatchState) (now : Int) (p : paneInfo)
    (cap : Option String) (q : String) (h : q ≠ p.id) :
    lookupA (processPane th st now p cap).1.paneOutputs q = lookupA st.paneOutputs q ∧
    lookupA (processPane th st now p cap).1.paneLastChange q = lookupA st.paneLastChange q := by
  cases cap with
  | none => exact ⟨rfl, rfl⟩
  | some output =>
    rw [processPane_fst]
    by_cases hc : lookupA st.paneOutputs p.id = some output
    · rw [if_pos hc]
      exact ⟨rfl, rfl⟩
    · rw [if_neg hc]
      exact ⟨lookupA_insertA_ne _ _ _ _ h, lookupA_insertA_ne _ _ _ _ h⟩

lemma processPane_snd_cases (th : Int) (st : WatchState) (now : Int) (p : paneInfo)
    (cap : Option String) :
    (processPane th st now p cap).2 = [] ∨
    (processPane th st now p cap).2 = [Report.idle now p.id] := by
  cases cap with
  | none => exact Or.inl rfl
  | some output =>
    simp only [processPane]
    split <;> split
    all_goals first
      | exact Or.inr rfl
      | exact Or.inl rfl

lemma processPane_snd (th : Int) (st : WatchState) (now : Int) (p : paneInfo)
    (output : String) (lc : Int)
    (h : lookupA (processPane th st now p (some output)).1.paneLastChange p.id = some lc) :
    (processPane th st now p (some output)).2 =
      (if detectIdle { p with lastChangeAt := lc, lastOutput := output } now th
       then [Report.idle now p.id] else []) := by
  rw [processPane_fst] at h
  simp only [processPane]
  rw [h]
  by_cases hd : detectIdle { p with lastChangeAt := lc, lastOutput := output } now th
  · simp [hd]
  · simp [hd]

lemma processPane_id_lastChange (th : Int) (st : WatchState) (now : Int) (p : paneInfo)
    (output : String)
    (h : lookupA st.paneOutputs p.id ≠ some output ∨
      lookupA st.paneLastChange p.id = some now) :
    lookupA (processPane th st now p (some output)).1.paneLastChange p.id = some now := by
  rw [processPane_fst]
  by_cases hc : lookupA st.paneOutputs p.id = some output
  · rw [if_pos hc]
    rcases h with h | h
    · exact absurd hc h
    · exact h
  · rw [if_neg hc]
    exact lookupA_insertA_self _ _ _

lemma processPane_id_no_idle (th : Int) (st : WatchState) (now : Int) (p : paneInfo)
    (output : String) (hth : 0 < th)
    (h : lookupA st.paneOutputs p.id ≠ some output ∨
      lookupA st.paneLastChange p.id = some now) :
    (processPane th st now p (some output)).2 = [] := by
  have hlc := processPane_id_lastChange th st now p output h
  rw [processPane_snd th st now p output now hlc]
  rw [if_neg]
  simp only [detectIdle, decide_eq_true_eq]
  omega

/-! ## Claim theorems: idle classification and per-pane update rule -/

/-- Claim C4: `detectIdle` classifies a pane as idle exactly when
`now - lastChangeAt ≥ threshold`; the boundary is inclusive (elapsed time
exactly equal to the threshold is idle) and any strictly smaller elapsed
time is active. -/
theorem claim4_detectIdle_boundary :
    ∀ (p : paneInfo) (now threshold : Int),
      (detectIdle p now threshold = true ↔ threshold ≤ now - p.lastChangeAt) ∧
      (now - p.lastChangeAt = threshold → detectIdle p now threshold = true) ∧
      (now - p.lastChangeAt < threshold → detectIdle p now threshold = false) := by
  intro p now threshold
  refine ⟨?_, ?_, ?_⟩ <;> simp only [detectIdle, decide_eq_true_eq, decide_eq_false_iff_not] <;> omega

/-- Witness for C4 at a concrete pane: elapsed time exactly the threshold
is idle, one less is active. -/
theorem claim4_witness :
    detectIdle ⟨"%1", "claude", "100", "/w", "", 0⟩ 10 10 = true ∧
    detectIdle ⟨"%1", "claude", "100", "/w", "", 0⟩ 9 10 = false := by
  constructor
  · exact (claim4_detectIdle_boundary ⟨"%1", "claude", "100", "/w", "", 0⟩ 10 10).2.1 (by decide)
  · exact (claim4_detectIdle_boundary ⟨"%1", "claude", "100", "/w", "", 0⟩ 9 10).2.2 (by decide)

/-- Claim C5: on a tick whose capture succeeds, if the pane has no stored
snapshot or the captured output differs from it, both the stored snapshot
and the stored last-change timestamp are set to the tick's values; if the
captured output equals the stored snapshot, the whole change-tracking
state is left unchanged. -/
theorem claim5_snapshot_update_rule :
    ∀ (th : Int) (st : WatchState) (now : Int) (p : paneInfo) (output : String),
      (lookupA st.paneOutputs p.id ≠ some output →
        lookupA (processPane th st now p (some output)).1.paneOutputs p.id = some output ∧
        lookupA (processPane th st now p (some output)).1.paneLastChange p.id = some now) ∧
      (lookupA st.paneOutputs p.id = some output →
        (processPane th st now p (some output)).1 = st) := by
  intro th st now p output
  rw [processPane_fst]
  constructor
  · intro h
    rw [if_neg h]
    exact ⟨lookupA_insertA_self _ _ _, lookupA_insertA_self _ _ _⟩
  · intro h
    rw [if_pos h]

/-- Witness for C5 at a concrete state: a fresh pane gets both entries
stamped, and an identical capture leaves the state untouched. -/
theorem claim5_witness :
    (lookupA (⟨[], []⟩ : WatchState).paneOutputs "%1" ≠ some "a" ∧
      lookupA (processPane 10 ⟨[], []⟩ 5 ⟨"%1", "claude", "100", "/w", "", 5⟩
        (some "a")).1.paneOutputs "%1" = some "a" ∧
      lookupA (processPane 10 ⟨[], []⟩ 5 ⟨"%1", "claude", "100", "/w", "", 5⟩
        (some "a")).1.paneLastChange "%1" = some 5) ∧
    (processPane 10 ⟨[("%1", "a")], [("%1", 2)]⟩ 5 ⟨"%1", "claude", "100", "/w", "", 5⟩
        (some "a")).1 = ⟨[("%1", "a")], [("%1", 2)]⟩ := by
  refine ⟨⟨by decide, ?_⟩, ?_⟩
  · exact (claim5_snapshot_update_rule 10 ⟨[], []⟩ 5 ⟨"%1", "claude", "100", "/w", "", 5⟩ "a").1
      (by decide)
  · exact (claim5_snapshot_update_rule 10 ⟨[("%1", "a")], [("%1", 2)]⟩ 5
      ⟨"%1", "claude", "100", "/w", "", 5⟩ "a").2 (by decide)

/-- Claim C6: a failed pane listing produces a warning, mutates no state,
and the loop goes on with the remaining ticks; a failed capture for one
pane skips exactly that pane's processing and the loop goes on with the
remaining panes. -/
theorem claim6_error_handling :
    (∀ (th : Int) (st : WatchState) (now : Int)
        (rest : List (Int × Option (List (paneInfo × Option String)))),
      runTicks th st ((now, none) :: rest) =
        ((runTicks th st rest).1, Report.warn now :: (runTicks th st rest).2)) ∧
    (∀ (th : Int) (st : WatchState) (now : Int) (p : paneInfo)
        (rest : List (paneInfo × Option String)),
      processPanes th st now ((p, none) :: rest) = processPanes th st now rest) := by
  constructor
  · intro th st now rest
    rfl
  · intro th st now p rest
    rfl

/-! ## Claim C2: reappearing panes and the persistence of tracking state -/

/-- A pane record for pane `%1` as `parsePaneList` would stamp it at
listing time `t`. -/
def reappearPane (t : Int) : paneInfo :=
  ⟨"%1", "claude", "100", "/w", "", t⟩

/-- A three-tick run in which pane `%1` is present at time 1, absent at
time 2, and present again at time 3, capturing the same output "a" both
times it is seen. -/
def reappearTicks : List (Int × Option (List (paneInfo × Option String))) :=
  [(1, some [(reappearPane 1, some "a")]),
   (2, some []),
   (3, some [(reappearPane 3, some "a")])]

/-- Counterexample to C2 as stated: pane `%1` disappears at tick 2 and
reappears at tick 3 with output equal to the snapshot stored before it
disappeared; its stored last-change timestamp after the reappearance tick
is still 1, not the reappearance tick's time 3, because `runWatch` never
clears the change-tracking maps for absent panes. -/
theorem claim2_counterexample :
    lookupA (runTicks 100 ⟨[], []⟩ reappearTicks).1.paneLastChange "%1" = some 1 ∧
    lookupA (runTicks 100 ⟨[], []⟩ reappearTicks).1.paneLastChange "%1" ≠ some 3 := by
  decide

/-- Claim C2 (amended): change-tracking state persists across ticks in
which the pane is absent; on the tick where the pane reappears its idle
clock restarts (last-change timestamp set to that tick's time) exactly
when the captured output differs from the stale stored snapshot (or no
snapshot is stored); when the captured output equals the stale stored
snapshot, the previously stored last-change timestamp is resumed. -/
theorem claim2_amended_reappear_rule :
    (∀ (th : Int) (st : WatchState) (now : Int)
        (panes : List (paneInfo × Option String)) (id : String),
      (∀ pc ∈ panes, pc.1.id ≠ id) →
      lookupA (processPanes th st now panes).1.paneOutputs id = lookupA st.paneOutputs id ∧
      lookupA (processPanes th st now panes).1.paneLastChange id =
        lookupA st.paneLastChange id) ∧
    (∀ (th : Int) (st : WatchState) (now : Int) (p : paneInfo) (output : String),
      lookupA st.paneOutputs p.id ≠ some output →
      lookupA (processPane th st now p (some output)).1.paneLastChange p.id = some now) ∧
    (∀ (th : Int) (st : WatchState) (now : Int) (p : paneInfo) (output : String),
      lookupA st.paneOutputs p.id = some output →
      lookupA (processPane th st now p (some output)).1.paneLastChange p.id =
        lookupA st.paneLastChange p.id) := by
  refine ⟨?_, ?_, ?_⟩
  · intro th st now panes
    induction panes generalizing st with
    | nil => intro id _; exact ⟨rfl, rfl⟩
    | cons pc rest ih =>
      intro id hne
      obtain ⟨p, cap⟩ := pc
      have hstep : processPanes th st now ((p, cap) :: rest) =
          ((processPanes th (processPane th st now p cap).1 now rest).1,
            (processPane th st now p cap).2 ++
              (processPanes th (processPane th st now p cap).1 now rest).2) := rfl
      rw [hstep]
      have hid : id ≠ p.id := by
        intro e
        exact (hne (p, cap) (List.mem_cons_self _ _)) e.symm
      have hfr := processPane_fst_frame th st now p cap id hid
      have hrest := ih (processPane th st now p cap).1 id
        (fun pc hpc => hne pc (List.mem_cons_of_mem _ hpc))
      exact ⟨hrest.1.trans hfr.1, hrest.2.trans hfr.2⟩
  · intro th st now p output h
    exact processPane_id_lastChange th st now p output (Or.inl h)
  · intro th st now p output h
    rw [processPane_fst, if_pos h]

/-- Witness for the amended C2 at concrete states: a reappearance with
changed output restarts the clock at the new tick's time, a reappearance
with the stale output resumes the stored timestamp, and a tick without
the pane leaves its entries untouched. -/
theorem claim2_witness :
    lookupA (processPane 100 ⟨[("%1", "a")], [("%1", 1)]⟩ 3 (reappearPane 3)
      (some "b")).1.paneLastChange "%1" = some 3 ∧
    lookupA (processPane 100 ⟨[("%1", "a")], [("%1", 1)]⟩ 3 (reappearPane 3)
      (some "a")).1.paneLastChange "%1" =
      lookupA (⟨[("%1", "a")], [("%1", 1)]⟩ : WatchState).paneLastChange "%1" ∧
    lookupA (processPanes 100 ⟨[("%1", "a")], [("%1", 1)]⟩ 2 []).1.paneLastChange "%1" =
      lookupA (⟨[("%1", "a")], [("%1", 1)]⟩ : WatchState).paneLastChange "%1" := by
  refine ⟨?_, ?_, ?_⟩
  · exact claim2_amended_reappear_rule.2.1 100 ⟨[("%1", "a")], [("%1", 1)]⟩ 3
      (reappearPane 3) "b" (by decide)
  · exact claim2_amended_reappear_rule.2.2 100 ⟨[("%1", "a")], [("%1", 1)]⟩ 3
      (reappearPane 3) "a" (by decide)
  · exact (claim2_amended_reappear_rule.1 100 ⟨[("%1", "a")], [("%1", 1)]⟩ 2 [] "%1"
      (by intro pc hpc; cases hpc)).2

/-! ## Claim C10: safety of truncateLastLine -/

/-- Claim C10: whenever `maxLen ≥ 3`, `truncateLastLine` is safe (the Go
slice bound is in range, so no panic) and its result is no longer than the
maximum of `maxLen` and the length of the output's last line; the
precondition is necessary: at `maxLen = 2` with the single line "abc" the
slice bound `maxLen - 3` is negative and the Go code panics. -/
theorem claim10_truncateLastLine_safe :
    (∀ (output : String) (maxLen : Int), 3 ≤ maxLen →
      ∃ r, truncateLastLine output maxLen = some r ∧
        (r.length : Int) ≤ max maxLen (((goSplit '\n' output).getLastD "").length : Int)) ∧
    truncateLastLine "abc" 2 = none := by
  constructor
  · intro output maxLen h3
    by_cases ho : output = ""
    · refine ⟨"", by simp [truncateLastLine, ho], ?_⟩
      calc ((("" : String).length : Nat) : Int) = 0 := rfl
        _ ≤ maxLen := by omega
        _ ≤ max maxLen (((goSplit '\n' output).getLastD "").length : Int) := le_max_left _ _
    · by_cases hb : ((((goSplit '\n' output).getLastD "").length : Nat) : Int) > maxLen
      · have hg : 0 ≤ maxLen - 3 ∧
            maxLen - 3 ≤ ((((goSplit '\n' output).getLastD "").length : Nat) : Int) :=
          ⟨by omega, by omega⟩
        refine ⟨String.mk (((goSplit '\n' output).getLastD "").data.take
          (maxLen - 3).toNat) ++ "...", ?_, ?_⟩
        · simp only [truncateLastLine, if_neg ho, if_pos hb, if_pos hg]
        · have e1 : (String.mk (((goSplit '\n' output).getLastD "").data.take
              (maxLen - 3).toNat)).length =
              min ((maxLen - 3).toNat) (((goSplit '\n' output).getLastD "").length) := by
            show (((goSplit '\n' output).getLastD "").data.take (maxLen - 3).toNat).length = _
            rw [List.length_take]
            rfl
          rw [String.length_append, e1]
          have hm : min ((maxLen - 3).toNat) (((goSplit '\n' output).getLastD "").length) ≤
              (maxLen - 3).toNat := Nat.min_le_left _ _
          have hk : (((maxLen - 3).toNat : Nat) : Int) = maxLen - 3 :=
            Int.toNat_of_nonneg (by omega)
          have hmi : ((min ((maxLen - 3).toNat)
              (((goSplit '\n' output).getLastD "").length) : Nat) : Int) ≤ maxLen - 3 := by
            calc ((min ((maxLen - 3).toNat)
                (((goSplit '\n' output).getLastD "").length) : Nat) : Int) ≤
                (((maxLen - 3).toNat : Nat) : Int) := by exact_mod_cast hm
              _ = maxLen - 3 := hk
          calc ((min ((maxLen - 3).toNat)
                (((goSplit '\n' output).getLastD "").length) + ("..." : String).length : Nat) : Int)
              = ((min ((maxLen - 3).toNat)
                (((goSplit '\n' output).getLastD "").length) : Nat) : Int) + 3 := by
                push_cast
                rfl
            _ ≤ (maxLen - 3) + 3 := by omega
            _ = maxLen := by ring
            _ ≤ max maxLen (((goSplit '\n' output).getLastD "").length : Int) := le_max_left _ _
      · refine ⟨(goSplit '\n' output).getLastD "", ?_, le_max_right _ _⟩
        simp only [truncateLastLine, if_neg ho, if_neg hb]
  · decide

/-- Witness for C10: the safety half applied at a concrete string and a
concrete `maxLen ≥ 3`. -/
theorem claim10_witness :
    (3 : Int) ≤ 60 ∧
    ∃ r, truncateLastLine "hello" 60 = some r ∧
      (r.length : Int) ≤ max 60 (((goSplit '\n' "hello").getLastD "").length : Int) :=
  ⟨by decide, claim10_truncateLastLine_safe.1 "hello" 60 (by decide)⟩

/-! ## Claim C3: parsePaneList fast path, fallback and exclusion -/

lemma parsePaneLine_fallback (lookup : String → String) (now : Int) (line : String)
    (fields : List String) (hne : line ≠ "") (hf : goSplit '\t' line = fields)
    (h3 : ¬ fields.length < 3) (hnt : isTargetCommand (fields.getD 1 "") = false)
    (hl : lookup (fields.getD 2 "") ≠ "") :
    parsePaneLine lookup now line =
      some ⟨fields.getD 0 "", lookup (fields.getD 2 ""), fields.getD 2 "",
        if 4 ≤ fields.length then fields.getD 3 "" else "", "", now⟩ := by
  simp only [parsePaneLine, if_neg hne, hf, if_neg h3, hnt, Bool.false_eq_true, if_false,
    if_pos hl]

/-- Claim C3: on the given two-row listing with a fallback lookup mapping
PID 200 to codex, `parsePaneList` returns exactly the two records in row
order — pane %3 via the direct match (for any behaviour of the lookup
elsewhere, so the lookup is not consulted for it) and pane %5 via the
fallback; and in general a row whose command is not a target and whose
lookup comes back empty is excluded entirely. -/
theorem claim3_parsePaneList_scenario :
    (∀ (lookup : String → String) (now : Int), lookup "200" = "codex" →
      parsePaneList lookup now "%3\tclaude\t100\t/a\n%5\tnode\t200\t/b\n" =
        [⟨"%3", "claude", "100", "/a", "", now⟩, ⟨"%5", "codex", "200", "/b", "", now⟩]) ∧
    (∀ (lookup : String → String) (now : Int) (line : String),
      isTargetCommand ((goSplit '\t' line).getD 1 "") = false →
      lookup ((goSplit '\t' line).getD 2 "") = "" →
      parsePaneLine lookup now line = none) := by
  constructor
  · intro lookup now h
    have hsplit : goSplit '\n' (trimSpace "%3\tclaude\t100\t/a\n%5\tnode\t200\t/b\n") =
        ["%3\tclaude\t100\t/a", "%5\tnode\t200\t/b"] := by decide
    show (goSplit '\n' (trimSpace "%3\tclaude\t100\t/a\n%5\tnode\t200\t/b\n")).filterMap
        (parsePaneLine lookup now) = _
    rw [hsplit, List.filterMap_cons, List.filterMap_cons, List.filterMap_nil]
    have e1 : parsePaneLine lookup now "%3\tclaude\t100\t/a" =
        some ⟨"%3", "claude", "100", "/a", "", now⟩ := rfl
    have e2 : parsePaneLine lookup now "%5\tnode\t200\t/b" =
        some ⟨"%5", lookup "200", "200", "/b", "", now⟩ :=
      parsePaneLine_fallback lookup now "%5\tnode\t200\t/b" ["%5", "node", "200", "/b"]
        (by decide) (by decide) (by decide) (by decide)
        (by show lookup "200" ≠ ""; rw [h]; decide)
    rw [e1, e2, h]
  · intro lookup now line hnt hl
    by_cases hne : line = ""
    · simp [parsePaneLine, hne]
    · by_cases h3 : (goSplit '\t' line).length < 3
      · simp [parsePaneLine, hne, h3]
      · simp only [parsePaneLine, if_neg hne, if_neg h3, hnt, Bool.false_eq_true, if_false,
          if_neg (not_not_intro hl)]

/-- Witness for C3: the scenario conclusion with an explicit stub lookup,
and the exclusion conclusion at a concrete bash row. -/
theorem claim3_witness :
    parsePaneList (fun q => if q = "200" then "codex" else "") 7
      "%3\tclaude\t100\t/a\n%5\tnode\t200\t/b\n" =
      [⟨"%3", "claude", "100", "/a", "", 7⟩, ⟨"%5", "codex", "200", "/b", "", 7⟩] ∧
    parsePaneLine (fun _ => "") 7 "%8\tbash\t300\t/c" = none := by
  constructor
  · exact claim3_parsePaneList_scenario.1 (fun q => if q = "200" then "codex" else "") 7
      (by decide)
  · exact claim3_parsePaneList_scenario.2 (fun _ => "") 7 "%8\tbash\t300\t/c"
      (by decide) (by decide)

/-! ## Claim C1: depth-first, children-before-recursion first match -/

lemma isTargetCommand_empty : isTargetCommand "" = false := by decide

lemma ne_empty_of_isTarget {c : String} (h : isTargetCommand c = true) : c ≠ "" := by
  intro e
  rw [e] at h
  exact absurd h (by decide)

lemma firstTargetComm_append (l₁ l₂ : List String) :
    firstTargetComm (l₁ ++ l₂) =
      if firstTargetComm l₁ = "" then firstTargetComm l₂ else firstTargetComm l₁ := by
  induction l₁ with
  | nil => simp [firstTargetComm]
  | cons c t ih =>
    cases hc : isTargetCommand c with
    | false => simp [firstTargetComm, hc, ih]
    | true =>
      have hne : ¬ c = "" := ne_empty_of_isTarget hc
      simp [firstTargetComm, hc, hne]

lemma dfs_first_aux (fuel : Nat) :
    (∀ (tree : List (String × psEntry)) (pid : String) (L : List String),
      dfsCommOrder fuel tree pid = some L →
      findTargetDescendantFuel fuel tree pid = some (firstTargetComm L)) ∧
    (∀ (tree : List (String × psEntry)) (cs : List psEntry) (L : List String),
      dfsCommOrderList (fun q => dfsCommOrder fuel tree q) cs = some L →
      scanChildren (fun q => findTargetDescendantFuel fuel tree q) cs =
        some (firstTargetComm L)) := by
  induction fuel with
  | zero =>
    constructor
    · intro tree pid L h
      exact absurd h (by simp [dfsCommOrder])
    · intro tree cs L h
      cases cs with
      | nil =>
        simp only [dfsCommOrderList, Option.some.injEq] at h
        subst h
        simp [scanChildren, firstTargetComm]
      | cons c t =>
        simp [dfsCommOrderList, dfsCommOrder] at h
  | succ n ihn =>
    have A : ∀ (tree : List (String × psEntry)) (pid : String) (L : List String),
        dfsCommOrder (n + 1) tree pid = some L →
        findTargetDescendantFuel (n + 1) tree pid = some (firstTargetComm L) := by
      intro tree pid L h
      exact ihn.2 tree (childrenOf tree pid) L h
    refine ⟨A, ?_⟩
    intro tree cs
    induction cs with
    | nil =>
      intro L h
      simp only [dfsCommOrderList, Option.some.injEq] at h
      subst h
      simp [scanChildren, firstTargetComm]
    | cons c t ih =>
      intro L h
      cases hv : dfsCommOrder (n + 1) tree c.pid with
      | none =>
        simp only [dfsCommOrderList, hv] at h
        exact Option.noConfusion h
      | some sub =>
        cases hr : dfsCommOrderList (fun q => dfsCommOrder (n + 1) tree q) t with
        | none =>
          simp only [dfsCommOrderList, hv, hr] at h
          exact Option.noConfusion h
        | some rl =>
          simp only [dfsCommOrderList, hv, hr, Option.some.injEq] at h
          subst h
          cases hc : isTargetCommand c.comm with
          | true =>
            have hne : ¬ c.comm = "" := ne_empty_of_isTarget hc
            simp [scanChildren, hc, firstTargetComm]
          | false =>
            have hA := A tree c.pid sub hv
            by_cases he : firstTargetComm sub = ""
            · have hRL : firstTargetComm (c.comm :: (sub ++ rl)) = firstTargetComm rl := by
                simp [firstTargetComm, hc, firstTargetComm_append, he]
              rw [hRL]
              simp only [scanChildren, hc, Bool.false_eq_true, if_false, hA, he, if_pos]
              exact ih rl hr
            · have hRL : firstTargetComm (c.comm :: (sub ++ rl)) = firstTargetComm sub := by
                simp [firstTargetComm, hc, firstTargetComm_append, he]
              rw [hRL]
              simp only [scanChildren, hc, Bool.false_eq_true, if_false, hA, if_neg he]

/-- Claim C1: for every process listing and root pid, whenever the
depth-first, children-before-recursion visit order of the subtree is
defined (enough fuel), `findTargetDescendant` returns exactly the first
target command of that order; and removing (hence permuting) a sibling
whose own command is not a target and whose subtree search finds no match
does not change the result of the sibling scan. -/
theorem claim1_dfs_first_match :
    (∀ (fuel : Nat) (tree : List (String × psEntry)) (pid : String) (L : List String),
      dfsCommOrder fuel tree pid = some L →
      findTargetDescendantFuel fuel tree pid = some (firstTargetComm L)) ∧
    (∀ (fuel : Nat) (tree : List (String × psEntry)) (xs : List psEntry) (c : psEntry)
        (ys : List psEntry),
      isTargetCommand c.comm = false →
      findTargetDescendantFuel fuel tree c.pid = some "" →
      scanChildren (fun q => findTargetDescendantFuel fuel tree q) (xs ++ c :: ys) =
        scanChildren (fun q => findTargetDescendantFuel fuel tree q) (xs ++ ys)) := by
  constructor
  · intro fuel tree pid L h
    exact (dfs_first_aux fuel).1 tree pid L h
  · intro fuel tree xs c ys hc hs
    induction xs with
    | nil => simp [scanChildren, hc, hs]
    | cons x t ih =>
      show scanChildren _ (x :: (t ++ c :: ys)) = scanChildren _ (x :: (t ++ ys))
      cases hx : isTargetCommand x.comm with
      | true => simp [scanChildren, hx]
      | false =>
        cases hsx : findTargetDescendantFuel fuel tree x.pid with
        | none => simp [scanChildren, hx, hsx]
        | some f =>
          by_cases hf : f = ""
          · simp only [scanChildren, hx, Bool.false_eq_true, if_false, hsx, hf, if_pos]
            exact ih
          · simp [scanChildren, hx, hsx, hf]

/-- A small concrete tree for the C1 witness: a node wrapper over claude,
with a codex sibling listed later. -/
def c1tree : List (String × psEntry) :=
  buildProcessTree "2 1 node\n3 2 claude\n4 1 codex"

/-- Witness for C1: on `c1tree` the visit order below pid 1 is
node, claude, codex and the search returns its first target command;
inserting a matchless bash sibling in front does not change the sibling
scan. -/
theorem claim1_witness :
    dfsCommOrder 5 c1tree "1" = some ["node", "claude", "codex"] ∧
    findTargetDescendantFuel 5 c1tree "1" =
      some (firstTargetComm ["node", "claude", "codex"]) ∧
    scanChildren (fun q => findTargetDescendantFuel 5 c1tree q)
        ([] ++ (⟨"9", "bash"⟩ : psEntry) :: childrenOf c1tree "1") =
      scanChildren (fun q => findTargetDescendantFuel 5 c1tree q)
        ([] ++ childrenOf c1tree "1") := by
  refine ⟨by decide, ?_, ?_⟩
  · exact claim1_dfs_first_match.1 5 c1tree "1" ["node", "claude", "codex"] (by decide)
  · exact claim1_dfs_first_match.2 5 c1tree [] ⟨"9", "bash"⟩ (childrenOf c1tree "1")
      (by decide) (by decide)

/-! ## Claim C9: termination of the descendant search -/

lemma mem_childrenOf {tree : List (String × psEntry)} {pid : String} {c : psEntry}
    (h : c ∈ childrenOf tree pid) : (pid, c) ∈ tree := by
  unfold childrenOf at h
  obtain ⟨e, he, hec⟩ := List.mem_map.mp h
  obtain ⟨p1, e2⟩ := e
  obtain ⟨het, hpp⟩ := List.mem_filter.mp he
  have hp : p1 = pid := by simpa using hpp
  subst hp
  subst hec
  exact het

lemma scanChildren_isSome (search : String → Option String) :
    ∀ cs : List psEntry, (∀ c ∈ cs, (search c.pid).isSome = true) →
      (scanChildren search cs).isSome = true := by
  intro cs
  induction cs with
  | nil => intro _; rfl
  | cons c t ih =>
    intro h
    simp only [scanChildren]
    cases hc : isTargetCommand c.comm with
    | true => simp
    | false =>
      simp only [Bool.false_eq_true, if_false]
      cases hs : search c.pid with
      | none =>
        have := h c (List.mem_cons_self _ _)
        rw [hs] at this
        exact absurd this (by simp)
      | some f =>
        by_cases hf : f = ""
        · simp only [hf, if_pos]
          exact ih (fun c hc => h c (List.mem_cons_of_mem _ hc))
        · simp [hf]

lemma findTD_isSome_of_rank :
    ∀ (n : Nat) (tree : List (String × psEntry)) (rank : String → Nat),
      (∀ pe ∈ tree, rank pe.2.pid < rank pe.1) →
      ∀ pid : String, rank pid < n →
        (findTargetDescendantFuel n tree pid).isSome = true := by
  intro n
  induction n with
  | zero => intro tree rank hr pid h; omega
  | succ n ih =>
    intro tree rank hr pid h
    show (scanChildren (fun q => findTargetDescendantFuel n tree q)
      (childrenOf tree pid)).isSome = true
    apply scanChildren_isSome
    intro c hc
    have hm := mem_childrenOf hc
    have hlt : rank c.pid < rank pid := hr (pid, c) hm
    exact ih tree rank hr c.pid (by omega)

/-- A listing whose single row is its own parent: pid 1 has parent 1. -/
def cycTree : List (String × psEntry) := buildProcessTree "1 1 loop"

lemma findTD_cyc_none : ∀ n : Nat, findTargetDescendantFuel n cycTree "1" = none := by
  intro n
  induction n with
  | zero => rfl
  | succ n ih =>
    show scanChildren (fun q => findTargetDescendantFuel n cycTree q)
      (childrenOf cycTree "1") = none
    rw [show childrenOf cycTree "1" = [⟨"1", "loop"⟩] from by decide]
    simp [scanChildren, show isTargetCommand "loop" = false from by decide, ih]

/-- Claim C9: the recursive descendant search terminates on every listing
whose parent-child graph is acyclic, witnessed by a rank function that
strictly decreases along every parent-child row: any fuel above the rank
of the root suffices.  The precondition is necessary: on the listing
"1 1 loop" (a row that is its own parent, with no target on the cycle)
the search rooted at pid 1 exhausts every fuel, i.e. the Go recursion does
not terminate. -/
theorem claim9_termination :
    (∀ (tree : List (String × psEntry)) (rank : String → Nat),
      (∀ pe ∈ tree, rank pe.2.pid < rank pe.1) →
      ∀ (pid : String) (fuel : Nat), rank pid < fuel →
        (findTargetDescendantFuel fuel tree pid).isSome = true) ∧
    (∀ fuel : Nat, findTargetDescendantFuel fuel cycTree "1" = none) := by
  constructor
  · intro tree rank hr pid fuel h
    exact findTD_isSome_of_rank fuel tree rank hr pid h
  · exact findTD_cyc_none

/-- Witness for C9: the acyclic two-process listing "2 1 claude" with an
explicit rank function. -/
theorem claim9_witness :
    (∀ pe ∈ buildProcessTree "2 1 claude",
      (fun s => if s = "1" then 1 else 0) pe.2.pid <
        (fun s => if s = "1" then 1 else 0) pe.1) ∧
    (findTargetDescendantFuel 2 (buildProcessTree "2 1 claude") "1").isSome = true := by
  refine ⟨by decide, ?_⟩
  exact claim9_termination.1 (buildProcessTree "2 1 claude")
    (fun s => if s = "1" then 1 else 0) (by decide) "1" 2 (by decide)

/-! ## Claim C7: exact basename matching -/

lemma takeWhile_append_cons_of_false {α : Type} (p : α → Bool) (a : α) (h : p a = false) :
    ∀ (l₁ l₂ : List α), (l₁ ++ a :: l₂).takeWhile p = l₁.takeWhile p := by
  intro l₁
  induction l₁ with
  | nil => intro l₂; simp [List.takeWhile, h]
  | cons x t ih =>
    intro l₂
    cases hx : p x with
    | true => simp [List.takeWhile, hx, ih]
    | false => simp [List.takeWhile, hx]

lemma takeWhile_eq_self_of_all {α : Type} (p : α → Bool) :
    ∀ l : List α, (∀ a ∈ l, p a = true) → l.takeWhile p = l := by
  intro l
  induction l with
  | nil => intro _; rfl
  | cons x t ih =>
    intro h
    have hx := h x (List.mem_cons_self _ _)
    simp [List.takeWhile, hx, ih (fun a ha => h a (List.mem_cons_of_mem _ ha))]

lemma dropWhile_head_false {α : Type} (p : α → Bool) :
    ∀ (l : List α) (c : α) (cs : List α), l.dropWhile p = c :: cs → p c = false := by
  intro l
  induction l with
  | nil => intro c cs h; exact absurd h (by simp [List.dropWhile])
  | cons x t ih =>
    intro c cs h
    cases hx : p x with
    | true =>
      rw [List.dropWhile_cons_of_pos hx] at h
      exact ih c cs h
    | false =>
      rw [List.dropWhile_cons_of_neg (by simp [hx])] at h
      cases h
      exact hx

lemma afterLastSlash_concat (pre base : List Char)
    (hb : ∀ c ∈ base, (c != '/') = true) :
    afterLastSlash (String.mk (pre ++ '/' :: base)) = String.mk base := by
  unfold afterLastSlash
  congr 1
  show (((pre ++ '/' :: base).reverse).takeWhile (fun c => c != '/')).reverse = base
  rw [List.reverse_append, List.reverse_cons, List.append_assoc]
  rw [show ['/'] ++ pre.reverse = '/' :: pre.reverse from rfl]
  rw [takeWhile_append_cons_of_false (fun c => c != '/') '/' (by decide)]
  rw [takeWhile_eq_self_of_all (fun c => c != '/') base.reverse
    (fun a ha => hb a (List.mem_reverse.mp ha))]
  exact List.reverse_reverse base

lemma afterLastSlash_decomp (cmd : String) :
    cmd = afterLastSlash cmd ∨
    ∃ pre : String, cmd = pre ++ String.mk ('/' :: (afterLastSlash cmd).data) := by
  have hsplit := List.takeWhile_append_dropWhile (p := fun c => c != '/')
    (l := cmd.data.reverse)
  cases hdc : cmd.data.reverse.dropWhile (fun c => c != '/') with
  | nil =>
    left
    rw [hdc, List.append_nil] at hsplit
    show cmd = String.mk ((cmd.data.reverse.takeWhile (fun c => c != '/')).reverse)
    rw [hsplit, List.reverse_reverse]
  | cons c cs =>
    right
    refine ⟨String.mk cs.reverse, ?_⟩
    have hc : c = '/' := by
      have := dropWhile_head_false (fun c => c != '/') cmd.data.reverse c cs hdc
      simpa using this
    show cmd = String.mk (cs.reverse ++ '/' ::
      ((cmd.data.reverse.takeWhile (fun c => c != '/')).reverse))
    have h1 : cmd.data = cs.reverse ++ c ::
        ((cmd.data.reverse.takeWhile (fun c => c != '/')).reverse) := by
      have h2 : cmd.data.reverse = cmd.data.reverse.takeWhile (fun c => c != '/') ++ c :: cs := by
        rw [← hdc]
        exact hsplit.symm
      have h3 := congrArg List.reverse h2
      rw [List.reverse_reverse, List.reverse_append, List.reverse_cons,
        List.append_assoc] at h3
      simpa using h3
    rw [hc] at h1
    apply String.ext
    exact h1

lemma isTargetCommand_iff (cmd : String) :
    isTargetCommand cmd = true ↔
      (cmd = "claude" ∨ cmd = "codex" ∨
        ∃ pre : String, cmd = pre ++ "/claude" ∨ cmd = pre ++ "/codex") := by
  constructor
  · intro h
    have hb : afterLastSlash cmd = "claude" ∨ afterLastSlash cmd = "codex" := by
      simpa [isTargetCommand] using h
    rcases afterLastSlash_decomp cmd with hd | ⟨pre, hd⟩
    · rcases hb with h1 | h1
      · exact Or.inl (hd.trans h1)
      · exact Or.inr (Or.inl (hd.trans h1))
    · refine Or.inr (Or.inr ⟨pre, ?_⟩)
      rcases hb with h1 | h1
      · left
        rw [hd, h1]
      · right
        rw [hd, h1]
  · intro h
    rcases h with h | h | ⟨pre, h | h⟩
    · rw [h]; decide
    · rw [h]; decide
    · have hba : afterLastSlash (pre ++ "/claude") = "claude" :=
        afterLastSlash_concat pre.data "claude".data (by decide)
      rw [h]
      simp [isTargetCommand, hba]
    · have hba : afterLastSlash (pre ++ "/codex") = "codex" :=
        afterLastSlash_concat pre.data "codex".data (by decide)
      rw [h]
      simp [isTargetCommand, hba]

lemma scanChildren_all_empty (search : String → Option String)
    (hs : ∀ q s', search q = some s' → s' = "") :
    ∀ cs : List psEntry, (∀ c ∈ cs, isTargetCommand c.comm = false) →
      ∀ s, scanChildren search cs = some s → s = "" := by
  intro cs
  induction cs with
  | nil =>
    intro _ s h
    simp only [scanChildren, Option.some.injEq] at h
    exact h.symm
  | cons c t ih =>
    intro hno s h
    have hc := hno c (List.mem_cons_self _ _)
    simp only [scanChildren, hc, Bool.false_eq_true, if_false] at h
    cases hsx : search c.pid with
    | none =>
      rw [hsx] at h
      exact Option.noConfusion h
    | some f =>
      have hf : f = "" := hs c.pid f hsx
      simp only [hsx, hf, if_pos] at h
      exact ih (fun c hc => hno c (List.mem_cons_of_mem _ hc)) s h

lemma findTD_no_target :
    ∀ (fuel : Nat) (tree : List (String × psEntry)) (pid s : String),
      (∀ pe ∈ tree, isTargetCommand pe.2.comm = false) →
      findTargetDescendantFuel fuel tree pid = some s → s = "" := by
  intro fuel
  induction fuel with
  | zero => intro tree pid s _ hf; exact Option.noConfusion hf
  | succ n ih =>
    intro tree pid s hno hf
    have hs : ∀ q s', findTargetDescendantFuel n tree q = some s' → s' = "" :=
      fun q s' h => ih tree q s' hno h
    have hcs : ∀ c ∈ childrenOf tree pid, isTargetCommand c.comm = false := by
      intro c hc
      exact hno (pid, c) (mem_childrenOf hc)
    exact scanChildren_all_empty _ hs (childrenOf tree pid) hcs s hf

/-- Claim C7: `isTargetCommand` matches exactly when the basename of the
command (the final segment after the last `/`, or the whole string) equals
`claude` or `codex`; the string `node` itself never matches; a listing
with no target command anywhere never resolves to a match; and a claude
process carrying a full path prefix at depth 3 below a node process
resolves to the name `claude`. -/
theorem claim7_exact_basename_match :
    (∀ cmd : String, isTargetCommand cmd = true ↔
      (cmd = "claude" ∨ cmd = "codex" ∨
        ∃ pre : String, cmd = pre ++ "/claude" ∨ cmd = pre ++ "/codex")) ∧
    isTargetCommand "node" = false ∧
    (∀ (fuel : Nat) (tree : List (String × psEntry)) (pid s : String),
      (∀ pe ∈ tree, isTargetCommand pe.2.comm = false) →
      findTargetDescendantFuel fuel tree pid = some s → s = "") ∧
    findTargetChild "2 1 node\n3 2 sh\n4 3 /usr/bin/claude" "1" = some "claude" := by
  refine ⟨isTargetCommand_iff, by decide, findTD_no_target, by decide⟩

/-- Witness for C7: a path-prefixed claude classifies as a target, and a
node-rooted listing with only non-target commands resolves to no match. -/
theorem claim7_witness :
    isTargetCommand "a/b/claude" = true ∧ ("" : String) = "" := by
  constructor
  · exact (claim7_exact_basename_match.1 "a/b/claude").mpr
      (Or.inr (Or.inr ⟨"a/b", Or.inl rfl⟩))
  · exact claim7_exact_basename_match.2.2.1 3 (buildProcessTree "2 1 node\n3 2 bash") "1" ""
      (by decide) (by decide)

/-! ## Claim C8: level-triggered idle reporting -/

lemma processPanes_no_idle (th : Int) (id : String) (hth : 0 < th) :
    ∀ (es : List (paneInfo × Option String)) (st : WatchState) (now : Int),
      (∀ pc ∈ es, pc.1.id = id → ∀ o, pc.2 = some o →
        (lookupA st.paneOutputs id ≠ some o ∨ lookupA st.paneLastChange id = some now)) →
      (processPanes th st now es).2.filter (isIdleReportFor id) = [] := by
  intro es
  induction es with
  | nil => intro st now _; rfl
  | cons pc rest ih =>
    intro st now hJ
    obtain ⟨p, cap⟩ := pc
    have hcons : (processPanes th st now ((p, cap) :: rest)).2 =
        (processPane th st now p cap).2 ++
          (processPanes th (processPane th st now p cap).1 now rest).2 := rfl
    rw [hcons, List.filter_append]
    have h1 : (processPane th st now p cap).2.filter (isIdleReportFor id) = [] := by
      cases cap with
      | none => rfl
      | some o =>
        by_cases hid : p.id = id
        · have hd := hJ (p, some o) (List.mem_cons_self _ _) hid o rfl
          rw [← hid] at hd
          rw [processPane_id_no_idle th st now p o hth hd]
          rfl
        · rcases processPane_snd_cases th st now p (some o) with h | h
          · rw [h]; rfl
          · rw [h]
            simp [isIdleReportFor, hid]
    have h2 : (processPanes th (processPane th st now p cap).1 now rest).2.filter
        (isIdleReportFor id) = [] := by
      apply ih
      intro qc hqc hqcid o ho
      cases cap with
      | none => exact hJ qc (List.mem_cons_of_mem _ hqc) hqcid o ho
      | some o' =>
        by_cases hid : p.id = id
        · right
          have hd := hJ (p, some o') (List.mem_cons_self _ _) hid o' rfl
          rw [← hid] at hd
          rw [← hid]
          exact processPane_id_lastChange th st now p o' hd
        · have hfr := processPane_fst_frame th st now p (some o') id (fun e => hid e.symm)
          rcases hJ qc (List.mem_cons_of_mem _ hqc) hqcid o ho with hL | hR
          · left
            rw [hfr.1]
            exact hL
          · right
            rw [hfr.2]
            exact hR
    rw [h1, h2]
    rfl

lemma runTicks_no_idle (th : Int) (id : String) (hth : 0 < th) :
    ∀ (ticks : List (Int × Option (List (paneInfo × Option String)))) (st0 : WatchState),
      (∀ k, k < ticks.length →
        ∀ pc ∈ ((ticks.getD k (0, none)).2.getD []), pc.1.id = id → pc.2 ≠ none →
          lookupA (runTicks th st0 (ticks.take k)).1.paneOutputs id ≠ pc.2) →
      (runTicks th st0 ticks).2.filter (isIdleReportFor id) = [] := by
  intro ticks
  induction ticks with
  | nil => intro st0 _; rfl
  | cons t rest ih =>
    intro st0 H
    obtain ⟨now, listing⟩ := t
    have hcons : (runTicks th st0 ((now, listing) :: rest)).2 =
        (runTick th st0 now listing).2 ++
          (runTicks th (runTick th st0 now listing).1 rest).2 := rfl
    rw [hcons, List.filter_append]
    have h1 : (runTick th st0 now listing).2.filter (isIdleReportFor id) = [] := by
      cases listing with
      | none => rfl
      | some panes =>
        apply processPanes_no_idle th id hth panes st0 now
        intro pc hpc hpcid o ho
        left
        have hm : pc ∈ ((((now, some panes) :: rest).getD 0 (0, none)).2.getD []) := hpc
        have hx := H 0 (by simp) pc hm hpcid (by simp [ho])
        rw [ho] at hx
        exact hx
    have h2 : (runTicks th (runTick th st0 now listing).1 rest).2.filter
        (isIdleReportFor id) = [] := by
      apply ih
      intro k hk pc hpc hpcid hne
      have hm : pc ∈ ((((now, listing) :: rest).getD (k + 1) (0, none)).2.getD []) := hpc
      have hx := H (k + 1) (Nat.succ_lt_succ hk) pc hm hpcid hne
      exact hx
    rw [h1, h2]
    rfl

/-- Claim C8: idle reporting is level-triggered — on each tick each pane
whose post-update last-change timestamp makes it idle produces exactly one
idle report line for that tick (so a pane idle across many ticks is
reported on every one of them); and over a whole run, a pane whose
captured output differs from its stored snapshot at every tick where it is
captured is never reported idle, provided the threshold is positive. -/
theorem claim8_level_triggered :
    (∀ (th : Int) (st : WatchState) (now : Int) (p : paneInfo) (output : String) (lc : Int),
      lookupA (processPane th st now p (some output)).1.paneLastChange p.id = some lc →
      (processPane th st now p (some output)).2 =
        (if detectIdle { p with lastChangeAt := lc, lastOutput := output } now th
         then [Report.idle now p.id] else [])) ∧
    (∀ (th : Int) (st0 : WatchState)
        (ticks : List (Int × Option (List (paneInfo × Option String)))) (id : String),
      0 < th →
      (∀ k, k < ticks.length →
        ∀ pc ∈ ((ticks.getD k (0, none)).2.getD []), pc.1.id = id → pc.2 ≠ none →
          lookupA (runTicks th st0 (ticks.take k)).1.paneOutputs id ≠ pc.2) →
      (runTicks th st0 ticks).2.filter (isIdleReportFor id) = []) := by
  constructor
  · intro th st now p output lc h
    exact processPane_snd th st now p output lc h
  · intro th st0 ticks id hth H
    exact runTicks_no_idle th id hth ticks st0 H

/-- A pane record for the C8 witness run. -/
def c8pane (t : Int) : paneInfo := ⟨"%2", "codex", "200", "/w", "", t⟩

/-- A two-tick run in which pane `%2`'s captured output changes on every
tick. -/
def c8ticks : List (Int × Option (List (paneInfo × Option String))) :=
  [(0, some [(c8pane 0, some "a")]), (10, some [(c8pane 10, some "b")])]

/-- Witness for C8: the per-tick report rule at a concrete state, and the
never-reported conclusion on a concrete run whose output changes every
tick. -/
theorem claim8_witness :
    (processPane 5 ⟨[], []⟩ 0 (c8pane 0) (some "a")).2 =
      (if detectIdle { c8pane 0 with lastChangeAt := 0, lastOutput := "a" } 0 5
       then [Report.idle 0 "%2"] else []) ∧
    (0 : Int) < 5 ∧
    (runTicks 5 ⟨[], []⟩ c8ticks).2.filter (isIdleReportFor "%2") = [] := by
  refine ⟨?_, by decide, ?_⟩
  · exact claim8_level_triggered.1 5 ⟨[], []⟩ 0 (c8pane 0) "a" 0 (by decide)
  · exact claim8_level_triggered.2 5 ⟨[], []⟩ c8ticks "%2" (by decide) (by decide)

end TmuxAgent
